import Mathlib

/-!
Verification of the knowledge extraction and retrieval engine of the
cordova-backend repository.

The TypeScript controllers are shallowly embedded here.  Strings are
modelled as lists of characters; JavaScript runtime numbers are modelled
by the type JSNum (an exact integer fraction together with the three
non-finite values Infinity, -Infinity and NaN); the MongoDB collection
is modelled as a list of Knowledge records in insertion order, with
findOne returning the first record satisfying the filter and create
appending a record.

Modelling notes, applying throughout:
  - the character classes of the JavaScript regular expressions are
    modelled over ASCII (the sources only rely on ASCII behaviour of the
    whitespace, word and digit classes);
  - JavaScript toLowerCase is modelled on the ASCII range;
  - printing of a finite non-integer number is modelled by an exact
    decimal expansion truncated to 17 fractional digits, which agrees
    with JavaScript printing on the terminating decimals produced by the
    arithmetic paths studied here;
  - where a dynamically constructed regular expression is applied to
    stored content, the match is modelled as a case-insensitive
    substring test of the interpolated literal; the theorems below never
    depend on the exact semantics of those searches, only on whether the
    construction of the pattern succeeds and on which store writes occur.
-/

set_option autoImplicit false

/-! ## Character classes -/

/-- The ASCII whitespace characters of the JavaScript regex class. -/
def wsChars : List Char := [' ', '\t', '\n', '\r', Char.ofNat 11, Char.ofNat 12]

/-- Membership in the JavaScript whitespace class (ASCII fragment). -/
def isWsChar (c : Char) : Bool := wsChars.contains c

/-- The five operator characters recognised by calculateExpression:
the regex class of plus, minus, star, letter x and slash. -/
def isOpChar (c : Char) : Bool :=
  c == '+' || c == '-' || c == '*' || c == 'x' || c == '/'

/-- The four operator characters of the bare-arithmetic pattern in
chat.controller generateResponse (no letter x). -/
def isOp4Char (c : Char) : Bool :=
  c == '+' || c == '-' || c == '*' || c == '/'

/-- The JavaScript word class: ASCII letters, digits and underscore. -/
def isWordChar (c : Char) : Bool :=
  c.isAlpha || c.isDigit || c == '_'

/-- ASCII model of JavaScript toLowerCase on a single character. -/
def jsToLower (c : Char) : Char :=
  if 'A' ≤ c ∧ c ≤ 'Z' then Char.ofNat (c.toNat + 32) else c

/-! ## Generic string (list-of-characters) utilities -/

/-- Model of JavaScript String.split on a single-character class regex:
every matching character is a separator, adjacent separators produce
empty pieces.  The result is always non-empty. -/
def splitEvery (p : Char → Bool) : List Char → List (List Char)
  | [] => [[]]
  | c :: cs =>
    let r := splitEvery p cs
    if p c then [] :: r
    else
      match r with
      | [] => [[c]]
      | h :: t => (c :: h) :: t

/-- Model of JavaScript String.split on a one-or-more character class
regex: maximal runs of matching characters are single separators, a
leading or trailing run produces one empty piece. -/
def splitRuns (p : Char → Bool) : List Char → List (List Char)
  | [] => [[]]
  | c :: cs =>
    if p c then
      match cs with
      | [] => [[], []]
      | c2 :: _ => if p c2 then splitRuns p cs else [] :: splitRuns p cs
    else
      match splitRuns p cs with
      | [] => [[c]]
      | h :: t => (c :: h) :: t

/-- Model of JavaScript String.trim: whitespace stripped on both ends. -/
def jsTrim (cs : List Char) : List Char :=
  ((cs.dropWhile isWsChar).reverse.dropWhile isWsChar).reverse

theorem length_dropWhile_le {α : Type} (p : α → Bool) (l : List α) :
    (l.dropWhile p).length ≤ l.length := by
  induction l with
  | nil => simp
  | cons c cs ih =>
    simp only [List.dropWhile_cons]
    split
    · exact Nat.le_trans ih (Nat.le_succ _)
    · simp

/-- Model of replacing every maximal whitespace run by one space (the
replace of a one-or-more whitespace regex by a space), written with a
was-inside-a-run flag so that the recursion is structural. -/
def collapseWsAux (prevWs : Bool) : List Char → List Char
  | [] => []
  | c :: rest =>
    if isWsChar c then
      if prevWs then collapseWsAux true rest
      else ' ' :: collapseWsAux true rest
    else c :: collapseWsAux false rest

def collapseWs (cs : List Char) : List Char := collapseWsAux false cs

/-- Substring test: does the second list contain the first as a
contiguous segment? -/
def isSub (needle hay : List Char) : Bool :=
  hay.tails.any (fun t => needle.isPrefixOf t)

/-- Case-insensitive substring test, the model used for an interpolated
literal inside a regex compiled with the i flag. -/
def ciSub (needle hay : List Char) : Bool :=
  isSub (needle.map jsToLower) (hay.map jsToLower)

/-- Numeric value of a list of decimal digit characters. -/
def digitsVal (cs : List Char) : Nat :=
  cs.foldl (fun n c => 10 * n + (c.toNat - 48)) 0

/-! ## JavaScript runtime numbers -/

/-- An exact fraction: integer numerator over a positive integer
denominator, not normalised (every operation below keeps the
denominator positive).  Exact fractions stand in for JavaScript
binary floating point; rounding is not modelled, and every theorem
below concerns values and operator chains where only the choice of
operation, the computed exact value and the finite/non-finite
distinction matter. -/
structure JSRat where
  num : Int
  den : Int
deriving DecidableEq, Repr

def jqOfNat (n : Nat) : JSRat := ⟨Int.ofNat n, 1⟩

def jqAdd (a b : JSRat) : JSRat := ⟨a.num * b.den + b.num * a.den, a.den * b.den⟩

def jqNeg (a : JSRat) : JSRat := ⟨-a.num, a.den⟩

def jqMul (a b : JSRat) : JSRat := ⟨a.num * b.num, a.den * b.den⟩

/-- Exact division, for a nonzero divisor; the sign moves to the
numerator so that the denominator stays positive. -/
def jqDiv (a b : JSRat) : JSRat :=
  if b.num < 0 then ⟨-(a.num * b.den), a.den * (-b.num)⟩
  else ⟨a.num * b.den, a.den * b.num⟩

/-- Value equality of fractions (cross multiplication). -/
def jqEq (a b : JSRat) : Bool := a.num * b.den == b.num * a.den

/-- Is the fraction strictly positive (the denominator is positive)? -/
def jqPos (a : JSRat) : Bool := 0 < a.num

/-- Is the fraction strictly negative (the denominator is positive)? -/
def jqNegV (a : JSRat) : Bool := a.num < 0

/-- Is the fraction zero? -/
def jqZero (a : JSRat) : Bool := a.num == 0

/-- A JavaScript number: an exact finite fraction, or one of the
non-finite values Infinity, -Infinity, NaN. -/
inductive JSNum where
  | fin (q : JSRat)
  | inf
  | negInf
  | nan
deriving DecidableEq, Repr

/-- IEEE-style addition on JSNum. -/
def jsAdd : JSNum → JSNum → JSNum
  | .nan, _ => .nan
  | _, .nan => .nan
  | .inf, .negInf => .nan
  | .negInf, .inf => .nan
  | .inf, _ => .inf
  | _, .inf => .inf
  | .negInf, _ => .negInf
  | _, .negInf => .negInf
  | .fin a, .fin b => .fin (jqAdd a b)

/-- IEEE-style negation on JSNum. -/
def jsNeg : JSNum → JSNum
  | .fin a => .fin (jqNeg a)
  | .inf => .negInf
  | .negInf => .inf
  | .nan => .nan

/-- IEEE-style subtraction on JSNum. -/
def jsSub (a b : JSNum) : JSNum := jsAdd a (jsNeg b)

/-- IEEE-style multiplication on JSNum. -/
def jsMul : JSNum → JSNum → JSNum
  | .nan, _ => .nan
  | _, .nan => .nan
  | .inf, .inf => .inf
  | .inf, .negInf => .negInf
  | .negInf, .inf => .negInf
  | .negInf, .negInf => .inf
  | .inf, .fin b => if jqPos b then .inf else if jqNegV b then .negInf else .nan
  | .fin a, .inf => if jqPos a then .inf else if jqNegV a then .negInf else .nan
  | .negInf, .fin b => if jqPos b then .negInf else if jqNegV b then .inf else .nan
  | .fin a, .negInf => if jqPos a then .negInf else if jqNegV a then .inf else .nan
  | .fin a, .fin b => .fin (jqMul a b)

/-- IEEE-style division on JSNum; a nonzero finite value divided by
zero is a signed infinity, zero divided by zero is NaN. -/
def jsDiv : JSNum → JSNum → JSNum
  | .nan, _ => .nan
  | _, .nan => .nan
  | .inf, .inf => .nan
  | .inf, .negInf => .nan
  | .negInf, .inf => .nan
  | .negInf, .negInf => .nan
  | .inf, .fin b => if jqNegV b then .negInf else .inf
  | .negInf, .fin b => if jqNegV b then .inf else .negInf
  | .fin _, .inf => .fin (jqOfNat 0)
  | .fin _, .negInf => .fin (jqOfNat 0)
  | .fin a, .fin b =>
    if jqZero b then
      if jqPos a then .inf else if jqNegV a then .negInf else .nan
    else .fin (jqDiv a b)

/-- Model of the JavaScript Number.isFinite test. -/
def jsIsFinite : JSNum → Bool
  | .fin _ => true
  | _ => false

/-- Model of JavaScript strict equality on numbers; NaN is equal to
nothing, including itself. -/
def jsStrictEq : JSNum → JSNum → Bool
  | .fin a, .fin b => jqEq a b
  | .inf, .inf => true
  | .negInf, .negInf => true
  | _, _ => false

/-- Optional-sign decimal parser used by the Number model: an optional
sign, then digits with an optional fractional part. -/
def parseSignedDec (cs : List Char) : Option JSRat :=
  let (sgn, r) :=
    match cs with
    | '-' :: r => ((-1 : Int), r)
    | '+' :: r => ((1 : Int), r)
    | r => ((1 : Int), r)
  let a := r.takeWhile Char.isDigit
  let r1 := r.dropWhile Char.isDigit
  match r1 with
  | [] => if a.isEmpty then none else some ⟨sgn * Int.ofNat (digitsVal a), 1⟩
  | '.' :: r2 =>
    let b := r2.takeWhile Char.isDigit
    let r3 := r2.dropWhile Char.isDigit
    if r3.isEmpty then
      if a.isEmpty ∧ b.isEmpty then none
      else
        some ⟨sgn * (Int.ofNat (digitsVal a) * Int.ofNat (Nat.pow 10 b.length) +
                Int.ofNat (digitsVal b)),
              Int.ofNat (Nat.pow 10 b.length)⟩
    else none
  | _ => none

/-- Model of the JavaScript Number conversion on a string: trims
whitespace, maps the empty string to 0, parses decimal forms and
the Infinity literals, and yields NaN otherwise.  (Exponent forms are
not modelled; no call site below produces them.) -/
def jsNumber (cs : List Char) : JSNum :=
  let t := jsTrim cs
  if t.isEmpty then .fin (jqOfNat 0)
  else if t.all Char.isDigit then .fin (jqOfNat (digitsVal t))
  else if t = "Infinity".toList ∨ t = "+Infinity".toList then .inf
  else if t = "-Infinity".toList then .negInf
  else
    match parseSignedDec t with
    | some q => .fin q
    | none => .nan

/-- Decimal digit character for a value below ten. -/
def digitChar (n : Nat) : Char := Char.ofNat (48 + n)

/-- Fractional decimal digits of num/den, truncated at the given fuel. -/
def fracDigits (num den : Nat) : Nat → List Char
  | 0 => []
  | fuel + 1 =>
    if num = 0 then []
    else digitChar (num * 10 / den) :: fracDigits (num * 10 % den) den fuel

/-- Decimal rendering of a natural number. -/
def natToChars (n : Nat) : List Char := (Nat.repr n).toList

/-- Model of JavaScript number-to-string conversion on JSNum.  Integers
print without a decimal point; a finite non-integer prints its decimal
expansion truncated to 17 fractional digits (exact for the terminating
decimals produced by the code paths studied here). -/
def jsNumToString : JSNum → List Char
  | .nan => "NaN".toList
  | .inf => "Infinity".toList
  | .negInf => "-Infinity".toList
  | .fin q =>
    let sign : List Char := if q.num < 0 then ['-'] else []
    let n := q.num.natAbs
    let d := q.den.toNat
    if n % d = 0 then sign ++ natToChars (n / d)
    else sign ++ natToChars (n / d) ++ '.' :: fracDigits (n % d) d 17

/-! ## The arithmetic evaluator of knowledge.controller

calculateExpression appears twice in knowledge.controller.ts, with the
same body, inside learnFromMessage and inside findKnowledge: the
expression is split on the operator-character class, every piece is
converted with Number, the single operator characters are collected in
order, and the numbers are combined strictly left to right. -/

/-- The loop of calculateExpression: result starts as numbers[0] and is
updated in place, one operator at a time, reading numbers[i + 1].  The
operator switch acts on the operator character; a missing next number
(indexing past the end) behaves as undefined, which makes every
arithmetic operation produce NaN. -/
def applyOp (r : JSNum) (c : Char) (n : JSNum) : JSNum :=
  if c = '+' then jsAdd r n
  else if c = '-' then jsSub r n
  else if c = '*' ∨ c = 'x' then jsMul r n
  else if c = '/' then jsDiv r n
  else r

def runOps : JSNum → List Char → List JSNum → JSNum
  | r, [], _ => r
  | r, c :: cs, ns => runOps (applyOp r c (ns.headD .nan)) cs ns.tail

/-- Shallow embedding of calculateExpression from
knowledge.controller.ts (identical in learnFromMessage and in
findKnowledge): split on the operator class, convert with Number,
collect the operator characters, fold left to right. -/
def calculateExpression (expr : List Char) : JSNum :=
  let numbers := (splitEvery isOpChar expr).map jsNumber
  let operators := expr.filter isOpChar
  runOps (numbers.headD .nan) operators numbers.tail

/-! ## The validation regex of learnFromMessage

The taught left side must match: start, one or more digits, then any
number of groups of optional whitespace, one operator character,
optional whitespace and one or more digits, then end. -/

/-- Tail of the validation-regex check, entered after the leading
digits: either the end of the string, or whitespace, an operator,
whitespace and more digits, repeated. -/
def validExprTailFuel : Nat → List Char → Bool
  | 0, cs => cs.isEmpty
  | fuel + 1, cs =>
    if cs.isEmpty then true
    else
      match cs.dropWhile isWsChar with
      | [] => false
      | c :: r2 =>
        if isOpChar c then
          if ((r2.dropWhile isWsChar).takeWhile Char.isDigit).isEmpty then false
          else validExprTailFuel fuel ((r2.dropWhile isWsChar).dropWhile Char.isDigit)
        else false

def validExprTail (cs : List Char) : Bool := validExprTailFuel cs.length cs

/-- Shallow embedding of the full-expression validation regex of
learnFromMessage. -/
def regexValidExpr (cs : List Char) : Bool :=
  let d := cs.takeWhile Char.isDigit
  let r := cs.dropWhile Char.isDigit
  !d.isEmpty && validExprTail r

/-! ## Leftmost matching of the two arithmetic search patterns

Both patterns begin with one-or-more digits, so a match can only start
at a digit, and greedy matching without backtracking is exact for them:
shrinking a greedy digit or whitespace run always leaves a digit or a
whitespace character where an operator is required. -/

/-- Match, at the current position, the bare-arithmetic pattern of
chat.controller generateResponse: digits, optional whitespace, one of
plus minus star slash, optional whitespace, digits.  Returns the
matched segment. -/
def matchTwoOpAt (cs : List Char) : Option (List Char) :=
  let d1 := cs.takeWhile Char.isDigit
  let r1 := cs.dropWhile Char.isDigit
  if d1.isEmpty then none
  else
    let w1 := r1.takeWhile isWsChar
    let r2 := r1.dropWhile isWsChar
    match r2 with
    | [] => none
    | c :: r3 =>
      if isOp4Char c then
        let w2 := r3.takeWhile isWsChar
        let r4 := r3.dropWhile isWsChar
        let d2 := r4.takeWhile Char.isDigit
        if d2.isEmpty then none
        else some (d1 ++ w1 ++ c :: (w2 ++ d2))
      else none

/-- Leftmost match of the bare-arithmetic pattern over the whole
message, the model of message.match(mathPattern). -/
def findFirstTwoOp : List Char → Option (List Char)
  | [] => none
  | c :: cs =>
    match matchTwoOpAt (c :: cs) with
    | some m => some m
    | none => findFirstTwoOp cs

/-- A character of the trailing class of the findKnowledge pattern:
operator (including letter x), whitespace or digit. -/
def isTailClassChar (c : Char) : Bool :=
  isOpChar c || isWsChar c || Char.isDigit c

/-- Match, at the current position, the findKnowledge pattern: digits,
optional whitespace, one of the five operator characters, optional
whitespace, digits, then greedily any further operator, whitespace or
digit characters. -/
def matchMathAt (cs : List Char) : Option (List Char) :=
  let d1 := cs.takeWhile Char.isDigit
  let r1 := cs.dropWhile Char.isDigit
  if d1.isEmpty then none
  else
    let w1 := r1.takeWhile isWsChar
    let r2 := r1.dropWhile isWsChar
    match r2 with
    | [] => none
    | c :: r3 =>
      if isOpChar c then
        let w2 := r3.takeWhile isWsChar
        let r4 := r3.dropWhile isWsChar
        let d2 := r4.takeWhile Char.isDigit
        let r5 := r4.dropWhile Char.isDigit
        if d2.isEmpty then none
        else some (d1 ++ w1 ++ c :: (w2 ++ d2 ++ r5.takeWhile isTailClassChar))
      else none

/-- Leftmost match of the findKnowledge arithmetic pattern. -/
def findFirstMath : List Char → Option (List Char)
  | [] => none
  | c :: cs =>
    match matchMathAt (c :: cs) with
    | some m => some m
    | none => findFirstMath cs

/-! ## The document store

A Knowledge record models a stored document.  The store is the list of documents
in insertion order; findOne returns the first document satisfying the
filter and create appends one.  Fields never read by the embedded code
paths are omitted. -/

structure Knowledge where
  content : List Char
  source : List Char
  type : Option (List Char)
  category : Option (List Char)
  tokens : List (List Char)
  confidence : Option JSRat
deriving DecidableEq, Repr

/-- A fact as created by the teaching path of
knowledge.controller learnFromMessage. -/
def teachFact (c : List Char) : Knowledge :=
  { content := c, source := "user_teaching".toList, type := some ("math".toList),
    category := none, tokens := [], confidence := none }

/-- A fact as created by the calculate-and-cache path of findKnowledge. -/
def calcFact (c : List Char) : Knowledge :=
  { content := c, source := "calculated".toList, type := some ("math".toList),
    category := none, tokens := [], confidence := none }

/-- The findOne filter shared by learnFromMessage and findKnowledge:
type math and the exact formatted content. -/
def isMathFactWith (c : List Char) (f : Knowledge) : Bool :=
  f.type == some ("math".toList) && f.content == c

/-! ## knowledge.controller: learnFromMessage -/

/-- Outcome of learnFromMessage: true after a successful arithmetic
teach, otherwise the chunk-processed message. -/
inductive LearnOutcome where
  | taught
  | chunkMsg
deriving DecidableEq, Repr

/-- Shallow embedding of learnFromMessage from knowledge.controller.ts:
on a message containing an equals sign, split at the equals signs, trim
the first two pieces, validate the left side against the expression
regex, recompute it with calculateExpression and compare strictly with
Number of the right side; on success persist the formatted content as a
math fact unless one with the same content already exists. -/
def learnFromMessage (msg : List Char) (store : List Knowledge) :
    LearnOutcome × List Knowledge :=
  if msg.contains '=' then
    let ps := (splitEvery (fun c => c == '=') msg).map jsTrim
    let expression := ps.headD []
    let result := (ps.drop 1).headD []
    if regexValidExpr expression then
      if jsStrictEq (calculateExpression expression) (jsNumber result) then
        let content := expression ++ (" = ").toList ++ result
        match store.find? (isMathFactWith content) with
        | some _ => (.taught, store)
        | none => (.taught, store ++ [teachFact content])
      else (.chunkMsg, store)
    else (.chunkMsg, store)
  else (.chunkMsg, store)

/-- The guard of the teaching branch of learnFromMessage, together with
the formatted content it persists: defined when the message contains an
equals sign, its trimmed left side matches the validation regex, and
the recomputation agrees strictly with Number of the trimmed right
side. -/
def teachContentOf (msg : List Char) : Option (List Char) :=
  if msg.contains '=' then
    let ps := (splitEvery (fun c => c == '=') msg).map jsTrim
    let expression := ps.headD []
    let result := (ps.drop 1).headD []
    if regexValidExpr expression &&
        jsStrictEq (calculateExpression expression) (jsNumber result) then
      some (expression ++ (" = ").toList ++ result)
    else none
  else none

/-! ## knowledge.controller: findKnowledge -/

/-- Second character class of the replace of quanto-followed-by-e:
the class of the characters e-acute, vertical bar and e, applied
case-insensitively. -/
def quantoClassChar (c : Char) : Bool :=
  let l := jsToLower c
  l == 'é' || l == '|' || l == 'e'

/-- Model of the global case-insensitive replace removing quanto
followed by one character of the class above. -/
def replaceQuantoFuel : Nat → List Char → List Char
  | 0, cs => cs
  | _, [] => []
  | fuel + 1, c :: rest =>
    if ((c :: rest).take 6).map jsToLower = "quanto".toList then
      match (c :: rest).drop 6 with
      | c7 :: _ =>
        if quantoClassChar c7 then replaceQuantoFuel fuel ((c :: rest).drop 7)
        else c :: replaceQuantoFuel fuel rest
      | [] => c :: replaceQuantoFuel fuel rest
    else c :: replaceQuantoFuel fuel rest

def replaceQuanto (cs : List Char) : List Char :=
  replaceQuantoFuel cs.length cs

/-- The query cleaning of findKnowledge: remove question marks, remove
quanto-e occurrences, collapse whitespace runs to single spaces, trim. -/
def cleanQuery (q : List Char) : List Char :=
  jsTrim (collapseWs (replaceQuanto (q.filter (fun c => c ≠ '?'))))

/-- The whitespace-collapsed, trimmed arithmetic expression extracted
by findKnowledge from a query, when its pattern matches. -/
def mathExprOf (q : List Char) : Option (List Char) :=
  (findFirstMath (cleanQuery q)).map (fun m => jsTrim (collapseWs m))

/-- The formatted expression-equals-result string findKnowledge builds
for a matching query. -/
def formattedOf (q : List Char) : Option (List Char) :=
  (mathExprOf q).map
    (fun e => e ++ (" = ").toList ++ jsNumToString (calculateExpression e))

/-- Shallow embedding of findKnowledge from knowledge.controller.ts:
clean the query, extract the leftmost arithmetic expression, recompute
it, format expression = result, return the stored math fact with that
content if present, otherwise persist it with source calculated and
return it; queries without an arithmetic match return null. -/
def findKnowledge (query : List Char) (store : List Knowledge) :
    Option (List Char) × List Knowledge :=
  let searchQuery := cleanQuery query
  match findFirstMath searchQuery with
  | some m =>
    let expression := jsTrim (collapseWs m)
    let formatted :=
      expression ++ (" = ").toList ++ jsNumToString (calculateExpression expression)
    match store.find? (isMathFactWith formatted) with
    | some f => (some f.content, store)
    | none => (some formatted, store ++ [calcFact formatted])
  | none => (none, store)

/-! ## chat.controller: tokenize and analyzeContent -/

/-- Shallow embedding of tokenize from chat.controller.ts: lower-case,
delete every character outside the word and whitespace classes, split
on whitespace runs, drop empty tokens. -/
def tokenize (text : List Char) : List (List Char) :=
  (splitRuns isWsChar
      ((text.map jsToLower).filter (fun c => isWordChar c || isWsChar c))).filter
    (fun t => 0 < t.length)

/-- The fixed keyword table of analyzeContent, in source order. -/
def chatPatterns : List (List Char × List (List Char)) :=
  [("programming".toList,
    ["tag".toList, "html".toList, "css".toList, "javascript".toList,
     "código".toList, "função".toList, "variável".toList]),
   ("math".toList,
    ["número".toList, "soma".toList, "multiplicação".toList,
     "divisão".toList, "equação".toList]),
   ("technology".toList,
    ["software".toList, "hardware".toList, "computador".toList,
     "internet".toList, "rede".toList])]

/-- Lookup in the insertion-ordered score map (JavaScript Map.get). -/
def getScore (m : List (List Char × Nat)) (k : List Char) : Option Nat :=
  (m.find? (fun p => p.1 == k)).map (fun p => p.2)

/-- Update of the insertion-ordered score map (JavaScript Map.set):
an existing key keeps its position, a new key is appended. -/
def setScore (m : List (List Char × Nat)) (k : List Char) (v : Nat) :
    List (List Char × Nat) :=
  if m.any (fun p => p.1 == k) then
    m.map (fun p => if p.1 == k then (k, v) else p)
  else m ++ [(k, v)]

/-- The token list of analyzeContent: lower-case, split on whitespace
runs, with no removal of empty tokens, so the list is never empty. -/
def tokensOf (msg : List Char) : List (List Char) :=
  splitRuns isWsChar (msg.map jsToLower)

/-- Stage one of analyzeContent: keyword counts per category, entered
only when positive, in the fixed pattern order. -/
def keywordScores (tokens : List (List Char)) : List (List Char × Nat) :=
  chatPatterns.foldl
    (fun m p =>
      let s := (tokens.filter (fun t => p.2.contains t)).length
      if 0 < s then setScore m p.1 s else m)
    []

/-- The store query of stage two of analyzeContent: documents whose
cached token array intersects the message tokens and whose category
field exists. -/
def relatedFor (tokens : List (List Char)) (store : List Knowledge) :
    List Knowledge :=
  store.filter (fun f => f.tokens.any (fun t => tokens.contains t) && f.category.isSome)

/-- Stage two of analyzeContent: one point per related document with a
truthy (non-empty) category. -/
def histScores (tokens : List (List Char)) (store : List Knowledge)
    (m0 : List (List Char × Nat)) : List (List Char × Nat) :=
  (relatedFor tokens store).foldl
    (fun m f =>
      match f.category with
      | some c => if c.isEmpty then m else setScore m c ((getScore m c).getD 0 + 1)
      | none => m)
    m0

/-- The combined score map of analyzeContent for a message and store. -/
def scoreMap (msg : List Char) (store : List Knowledge) :
    List (List Char × Nat) :=
  histScores (tokensOf msg) store (keywordScores (tokensOf msg))

/-- The best-category selection loop of analyzeContent: general with
score zero initially, replaced whenever an entry has a strictly higher
score, in map iteration (insertion) order. -/
def bestOf (m : List (List Char × Nat)) : List Char × Nat :=
  m.foldl (fun b p => if b.2 < p.2 then p else b) ("general".toList, 0)

/-- The ephemeral result of analyzeContent. -/
structure Analysis where
  category : List Char
  confidence : JSRat
  tokens : List (List Char)
deriving DecidableEq, Repr

/-- The auto-learning record created by every analyzeContent call. -/
def autoLearnFact (msg : List Char) (tokens : List (List Char))
    (cat : List Char) (conf : JSRat) : Knowledge :=
  { content := msg, source := "auto_learning".toList, type := none,
    category := some cat, tokens := tokens, confidence := some conf }

/-- Shallow embedding of analyzeContent from chat.controller.ts:
keyword scores, historical boosts from the store, strictly-higher
best-category selection, confidence best-score over token count, and
creation of an auto-learning record. -/
def analyzeContent (msg : List Char) (store : List Knowledge) :
    Analysis × List Knowledge :=
  let tokens := tokensOf msg
  let best := bestOf (scoreMap msg store)
  let conf : JSRat := jqDiv (jqOfNat best.2) (jqOfNat tokens.length)
  ({ category := best.1, confidence := conf, tokens := tokens },
   store ++ [autoLearnFact msg tokens best.1 conf])

/-! ## chat.controller: generateResponse -/

/-- The response produced by generateResponse. -/
structure LLMResp where
  content : List Char
  confidence : JSRat
deriving DecidableEq, Repr

/-- The four dynamically constructed search patterns of
generateResponse, interpolating the raw lower-cased trimmed message
with no escaping; given here as the exact character sequences handed to
the regular-expression compiler. -/
def buildPattern1 (term : List Char) : List Char :=
  "\\b".toList ++ term ++ "\\b".toList

def buildPattern2 (term : List Char) : List Char :=
  "^".toList ++ term ++ "\\b|\\. ".toList ++ term ++ "\\b".toList

def buildPattern3 (term : List Char) : List Char :=
  term ++ "\\s+(?:is|are|é|são|significa|means)".toList

def buildPattern4 (term : List Char) : List Char :=
  "<".toList ++ term ++ "[^>]*>|tag\\s+".toList ++ term

/-- Incomplete model of the validity check performed by the
JavaScript regular-expression compiler: every escape is complete, every
group is balanced and every character class is closed.  These are
necessary conditions for successful compilation; the theorems below
apply this check only to the concrete patterns built above. -/
def regexScanOk : List Char → Nat → Bool → Bool
  | [], d, inClass => decide (d = 0) && !inClass
  | '\\' :: rest, d, inClass =>
    match rest with
    | [] => false
    | _ :: rest2 => regexScanOk rest2 d inClass
  | '(' :: rest, d, false => regexScanOk rest (d + 1) false
  | ')' :: rest, d, false => decide (0 < d) && regexScanOk rest (d - 1) false
  | '[' :: rest, d, false => regexScanOk rest d true
  | ']' :: rest, d, true => regexScanOk rest d false
  | _ :: rest, d, inClass => regexScanOk rest d inClass

def regexCompileOk (p : List Char) : Bool := regexScanOk p 0 false

/-- Model of the eval call of generateResponse on the cleaned match:
the match with whitespace removed is always digits, one operator,
digits, and eval computes that single binary operation; any other
shape (unreachable from the match) is mapped to NaN. -/
def evalCleanTwoOp (cs : List Char) : JSNum :=
  let d1 := cs.takeWhile Char.isDigit
  let r1 := cs.dropWhile Char.isDigit
  match r1 with
  | c :: r2 =>
    let d2 := r2.takeWhile Char.isDigit
    if !d1.isEmpty && isOp4Char c && !d2.isEmpty &&
        (r2.dropWhile Char.isDigit).isEmpty then
      applyOp (.fin (jqOfNat (digitsVal d1))) c (.fin (jqOfNat (digitsVal d2)))
    else .nan
  | [] => .nan

/-- Model of the tag-removing replace of extractRelevantContent: every
left angle, shortest run of non-right-angle characters, right angle
segment becomes a space; a left angle with no closing right angle stays. -/
def stripTagsFuel : Nat → List Char → List Char
  | 0, cs => cs
  | _, [] => []
  | fuel + 1, '<' :: rest =>
    (match rest.drop (rest.takeWhile (fun c => c ≠ '>')).length with
     | '>' :: after => ' ' :: stripTagsFuel fuel after
     | _ => '<' :: stripTagsFuel fuel rest)
  | fuel + 1, c :: rest => c :: stripTagsFuel fuel rest

def stripTags (cs : List Char) : List Char := stripTagsFuel cs.length cs

/-- The sentence split of extractRelevantContent on runs of period,
exclamation and question marks. -/
def sentenceSplit (cs : List Char) : List (List Char) :=
  splitRuns (fun c => c == '.' || c == '!' || c == '?') cs

/-- Shallow embedding of extractRelevantContent from
chat.controller.ts: strip tags, collapse whitespace, trim, split into
sentences, return the first sentence containing the term
case-insensitively, or the whole cleaned content. -/
def extractRelevantContent (content term : List Char) : List Char :=
  let cleanContent := jsTrim (collapseWs (stripTags content))
  let relevant := (sentenceSplit cleanContent).filter (fun s => ciSub term s)
  match relevant with
  | s :: _ => jsTrim s
  | [] => cleanContent

/-- Modelled: the store-level $or filter of generateResponse combining
the four patterns, approximated as a case-insensitive substring test of
the interpolated term (each variant contains the term literally).  No
theorem below depends on the value of this predicate. -/
def searchMatches (term content : List Char) : Bool := ciSub term content

/-- Lexicographic order on character lists by code point, the model of
the string comparison used by the store sort. -/
def strLeVal : List Char → List Char → Bool
  | [], _ => true
  | _ :: _, [] => false
  | a :: as, b :: bs => if a = b then strLeVal as bs else decide (a < b)

/-- Stable insertion for a sort by source descending. -/
def insertDesc (f : Knowledge) : List Knowledge → List Knowledge
  | [] => [f]
  | g :: gs =>
    if !strLeVal f.source g.source then f :: g :: gs
    else g :: insertDesc f gs

/-- Model of the sort of the generateResponse store query: source
descending, then timestamp descending; insertion order stands in for
the timestamp, so the store is reversed before the stable sort. -/
def sortForSearch (store : List Knowledge) : List Knowledge :=
  (store.reverse).foldl (fun acc f => insertDesc f acc) []

/-- The teach-me answer of generateResponse for an unmatched message. -/
def notFoundContent (msg : List Char) : List Char :=
  "Não encontrei uma definição para \"".toList ++ msg ++
    "\". Você pode me ensinar?".toList

/-- The catch-all answer of generateResponse. -/
def errorContent : List Char :=
  "Ocorreu um erro ao processar sua pergunta.".toList

/-- The store-search stage of generateResponse (its second step): the
four patterns are compiled from the raw lower-cased trimmed message; a
failing compilation raises, is caught by the surrounding try, and
yields the catch-all answer; otherwise the first matching document (in
sorted order) is summarised with confidence 0.8, and a miss yields the
teach-me answer with confidence 0.  No store write happens here. -/
def generateResponseSearch (msg : List Char) (store : List Knowledge) :
    LLMResp × List Knowledge :=
  let searchTerm := jsTrim (msg.map jsToLower)
  if regexCompileOk (buildPattern1 searchTerm) &&
      regexCompileOk (buildPattern2 searchTerm) &&
      regexCompileOk (buildPattern3 searchTerm) &&
      regexCompileOk (buildPattern4 searchTerm) then
    match (sortForSearch store).find? (fun f => searchMatches searchTerm f.content) with
    | some k =>
      ({ content := extractRelevantContent k.content searchTerm,
         confidence := jqDiv (jqOfNat 8) (jqOfNat 10) }, store)
    | none => ({ content := notFoundContent msg, confidence := jqOfNat 0 }, store)
  else ({ content := errorContent, confidence := jqOfNat 0 }, store)

/-- Shallow embedding of generateResponse from chat.controller.ts: if
the bare-arithmetic pattern matches, remove whitespace from the match,
evaluate it, and when the value is finite answer expression = value
with confidence 1 and no store access; otherwise fall through to the
store search. -/
def generateResponse (msg : List Char) (store : List Knowledge) :
    LLMResp × List Knowledge :=
  match findFirstTwoOp msg with
  | some m =>
    let cleanExpr := m.filter (fun c => !isWsChar c)
    let result := evalCleanTwoOp cleanExpr
    if jsIsFinite result then
      ({ content := cleanExpr ++ (" = ").toList ++ jsNumToString result,
         confidence := jqOfNat 1 }, store)
    else generateResponseSearch msg store
  | none => generateResponseSearch msg store

/-! ## part_003 chat controller: detectKnowledgeType and the
retrieval candidate list -/

inductive KnowledgeType where
  | MATH
  | GEOGRAPHY
  | POLITICS
  | GENERAL
deriving DecidableEq, Repr

/-- The single-character class of the math test of detectKnowledgeType:
a digit or one of plus, minus, star, slash, equals. -/
def isMathDetectChar (c : Char) : Bool :=
  Char.isDigit c || c == '+' || c == '-' || c == '*' || c == '/' || c == '='

def geographyWords : List (List Char) :=
  ["capital".toList, "país".toList, "continente".toList, "clima".toList]

def politicsWords : List (List Char) :=
  ["presidente".toList, "política".toList, "governo".toList,
   "eleição".toList, "partido".toList]

/-- Shallow embedding of detectKnowledgeType: math when any math
character occurs in the lower-cased message, then the geography and
politics keyword alternations, then general. -/
def detectKnowledgeType (msg : List Char) : KnowledgeType :=
  let low := msg.map jsToLower
  if low.any isMathDetectChar then .MATH
  else if geographyWords.any (fun w => isSub w low) then .GEOGRAPHY
  else if politicsWords.any (fun w => isSub w low) then .POLITICS
  else .GENERAL

/-- The search terms of the part_003 generateResponse: the lower-cased
trimmed message split on single spaces, keeping terms longer than two
characters. -/
def searchTermsOf (msg : List Char) : List (List Char) :=
  (splitEvery (fun c => c == ' ') (jsTrim (msg.map jsToLower))).filter
    (fun t => 2 < t.length)

/-- Modelled from the part_003 store query: content matches the
case-insensitive alternation of the search terms (an empty alternation
matches everything) or contains the raw message case-insensitively;
interpolated terms are treated as literals. -/
def candMatch (msg : List Char) (content : List Char) : Bool :=
  let terms := searchTermsOf msg
  (if terms.isEmpty then true else terms.any (fun t => ciSub t content)) ||
    ciSub msg content

/-- The candidate list the part_003 generateResponse hands to answer
selection: matching documents, most recent first, limited to five.
No collapsing of equal or similar contents happens anywhere. -/
def candidateFacts (msg : List Char) (store : List Knowledge) :
    List Knowledge :=
  ((store.filter (fun f => candMatch msg f.content)).reverse).take 5

/-- Content normalisation as described by the specification for the
retrieval deduplication step: lower-cased, whitespace runs collapsed.
Defined from the specification text for comparison; the source has no
corresponding operation. -/
def normContent (cs : List Char) : List Char :=
  collapseWs (cs.map jsToLower)

/-! ## Supporting lemmas: character classes -/

theorem ws_not_op {c : Char} (h : isWsChar c = true) : isOpChar c = false := by
  have hm : c ∈ wsChars := by simpa [isWsChar] using h
  simp only [wsChars, List.mem_cons, List.mem_singleton] at hm
  rcases hm with rfl | rfl | rfl | rfl | rfl | hm
  · decide
  · decide
  · decide
  · decide
  · decide
  · simp at hm; subst hm; decide

theorem ws_not_digit {c : Char} (h : isWsChar c = true) : Char.isDigit c = false := by
  have hm : c ∈ wsChars := by simpa [isWsChar] using h
  simp only [wsChars, List.mem_cons, List.mem_singleton] at hm
  rcases hm with rfl | rfl | rfl | rfl | rfl | hm
  · decide
  · decide
  · decide
  · decide
  · decide
  · simp at hm; subst hm; decide

theorem op_cases {c : Char} (h : isOpChar c = true) :
    c = '+' ∨ c = '-' ∨ c = '*' ∨ c = 'x' ∨ c = '/' := by
  simp only [isOpChar, Bool.or_eq_true, beq_iff_eq] at h
  tauto

theorem digit_not_op {c : Char} (h : Char.isDigit c = true) : isOpChar c = false := by
  cases hop : isOpChar c
  · rfl
  · exfalso
    rcases op_cases hop with rfl | rfl | rfl | rfl | rfl <;> exact absurd h (by decide)

theorem digit_not_ws {c : Char} (h : Char.isDigit c = true) : isWsChar c = false := by
  cases hw : isWsChar c
  · rfl
  · exact absurd (ws_not_digit hw) (by simp [h])

theorem op_not_ws {c : Char} (h : isOpChar c = true) : isWsChar c = false := by
  cases hw : isWsChar c
  · rfl
  · exact absurd (ws_not_op hw) (by simp [h])

/-! ## Supporting lemmas: takeWhile, dropWhile, filter, splitEvery -/

theorem takeWhile_append_all {p : Char → Bool} {xs : List Char}
    (h : ∀ c ∈ xs, p c = true) (ys : List Char) :
    (xs ++ ys).takeWhile p = xs ++ ys.takeWhile p := by
  induction xs with
  | nil => simp
  | cons a l ih =>
    have ha := h a (List.mem_cons_self a l)
    simp only [List.cons_append, List.takeWhile_cons, ha, if_true]
    rw [ih (fun c hc => h c (List.mem_cons_of_mem a hc))]

theorem dropWhile_append_all {p : Char → Bool} {xs : List Char}
    (h : ∀ c ∈ xs, p c = true) (ys : List Char) :
    (xs ++ ys).dropWhile p = ys.dropWhile p := by
  induction xs with
  | nil => simp
  | cons a l ih =>
    have ha := h a (List.mem_cons_self a l)
    simp only [List.cons_append, List.dropWhile_cons, ha, if_true]
    exact ih (fun c hc => h c (List.mem_cons_of_mem a hc))

theorem takeWhile_cons_neg {p : Char → Bool} {c : Char} (h : p c = false)
    (l : List Char) : (c :: l).takeWhile p = [] := by
  simp [List.takeWhile_cons, h]

theorem dropWhile_cons_neg {p : Char → Bool} {c : Char} (h : p c = false)
    (l : List Char) : (c :: l).dropWhile p = c :: l := by
  simp [List.dropWhile_cons, h]

theorem takeWhile_all_neg {p : Char → Bool} {l : List Char}
    (h : ∀ c ∈ l, p c = false) : l.takeWhile p = [] := by
  cases l with
  | nil => rfl
  | cons a l => exact takeWhile_cons_neg (h a (List.mem_cons_self a l)) l

theorem filter_all_neg {p : Char → Bool} {l : List Char}
    (h : ∀ c ∈ l, p c = false) : l.filter p = [] := by
  induction l with
  | nil => rfl
  | cons a l ih =>
    simp only [List.filter_cons, h a (List.mem_cons_self a l)]
    exact ih (fun c hc => h c (List.mem_cons_of_mem a hc))

theorem filter_sep {p : Char → Bool} {xs : List Char}
    (h : ∀ a ∈ xs, p a = false) {c : Char} (hc : p c = true) (ys : List Char) :
    (xs ++ c :: ys).filter p = c :: ys.filter p := by
  rw [List.filter_append, filter_all_neg h]
  simp [List.filter_cons, hc]

theorem splitEvery_all_neg {p : Char → Bool} {xs : List Char}
    (h : ∀ c ∈ xs, p c = false) : splitEvery p xs = [xs] := by
  induction xs with
  | nil => rfl
  | cons a l ih =>
    simp only [splitEvery, h a (List.mem_cons_self a l)]
    rw [ih (fun c hc => h c (List.mem_cons_of_mem a hc))]
    simp

theorem splitEvery_ne_nil (p : Char → Bool) (xs : List Char) :
    splitEvery p xs ≠ [] := by
  cases xs with
  | nil => simp [splitEvery]
  | cons a l =>
    simp only [splitEvery]
    split
    · simp
    · split
      · simp
      · simp

theorem splitEvery_append_sep {p : Char → Bool} {xs : List Char}
    (h : ∀ c ∈ xs, p c = false) {c : Char} (hc : p c = true) (ys : List Char) :
    splitEvery p (xs ++ c :: ys) = xs :: splitEvery p ys := by
  induction xs with
  | nil => simp [splitEvery, hc]
  | cons a l ih =>
    have ha := h a (List.mem_cons_self a l)
    have ihl := ih (fun b hb => h b (List.mem_cons_of_mem a hb))
    simp only [List.cons_append, splitEvery, ha, List.append_eq,
      Bool.false_eq_true, if_false]
    rw [ihl]

/-! ## Supporting lemmas: splitRuns -/

theorem splitRuns_ne_nil (p : Char → Bool) (cs : List Char) :
    splitRuns p cs ≠ [] := by
  induction cs with
  | nil => simp [splitRuns]
  | cons c cs ih =>
    simp only [splitRuns]
    by_cases hc : p c = true
    · rw [if_pos hc]
      cases cs with
      | nil => simp
      | cons c2 cs2 =>
        by_cases h2 : p c2 = true
        · simpa [h2] using ih
        · simp [h2]
    · rw [if_neg hc]
      cases hsr : splitRuns p cs with
      | nil => simp
      | cons h t => simp

theorem splitRuns_mem (p : Char → Bool) :
    ∀ (cs t : List Char), t ∈ splitRuns p cs → ∀ a ∈ t, a ∈ cs ∧ p a = false := by
  intro cs
  induction cs with
  | nil =>
    intro t ht a ha
    simp only [splitRuns, List.mem_singleton] at ht
    subst ht
    simp at ha
  | cons c cs ih =>
    intro t ht a ha
    simp only [splitRuns] at ht
    by_cases hc : p c = true
    · rw [if_pos hc] at ht
      cases cs with
      | nil =>
        simp at ht
        subst ht
        simp at ha
      | cons c2 cs2 =>
        change t ∈ (if p c2 = true then splitRuns p (c2 :: cs2)
          else [] :: splitRuns p (c2 :: cs2)) at ht
        by_cases h2 : p c2 = true
        · rw [if_pos h2] at ht
          have hres := ih t ht a ha
          exact ⟨List.mem_cons_of_mem c hres.1, hres.2⟩
        · rw [if_neg h2] at ht
          rcases List.mem_cons.mp ht with rfl | hmem
          · simp at ha
          · have hres := ih t hmem a ha
            exact ⟨List.mem_cons_of_mem c hres.1, hres.2⟩
    · rw [if_neg hc] at ht
      cases hsr : splitRuns p cs with
      | nil => exact absurd hsr (splitRuns_ne_nil p cs)
      | cons h t' =>
        rw [hsr] at ht
        rcases List.mem_cons.mp ht with rfl | hmem
        · rcases List.mem_cons.mp ha with rfl | hmem2
          · exact ⟨List.mem_cons_self a cs, by simpa using hc⟩
          · have hh : h ∈ splitRuns p cs := by
              rw [hsr]; exact List.mem_cons_self h t'
            have hres := ih h hh a hmem2
            exact ⟨List.mem_cons_of_mem c hres.1, hres.2⟩
        · have htl : t ∈ splitRuns p cs := by
            rw [hsr]; exact List.mem_cons_of_mem h hmem
          have hres := ih t htl a ha
          exact ⟨List.mem_cons_of_mem c hres.1, hres.2⟩

/-! ## Supporting lemmas: find? -/

theorem find?_eq_none_iff_any {α : Type} (p : α → Bool) (l : List α) :
    l.find? p = none ↔ l.any p = false := by
  rw [List.find?_eq_none]
  constructor
  · intro h
    by_contra hc
    have : l.any p = true := by
      cases hany : l.any p
      · exact absurd hany hc
      · rfl
    rcases List.any_eq_true.mp this with ⟨x, hx, hpx⟩
    exact h x hx hpx
  · intro h x hx hpx
    have : l.any p = true := List.any_eq_true.mpr ⟨x, hx, hpx⟩
    rw [h] at this
    cases this

theorem find?_append_none {α : Type} {p : α → Bool} {l₁ : List α}
    (h : l₁.find? p = none) (l₂ : List α) :
    (l₁ ++ l₂).find? p = l₂.find? p := by
  induction l₁ with
  | nil => simp
  | cons a l ih =>
    cases hp : p a
    · rw [List.find?_cons_of_neg _ (by simp [hp])] at h
      rw [List.cons_append, List.find?_cons_of_neg _ (by simp [hp])]
      exact ih h
    · rw [List.find?_cons_of_pos _ hp] at h
      cases h

/-! ## Supporting lemmas: trim and Number on whitespace-digit-whitespace -/

theorem jsTrim_sandwich {w d w' : List Char}
    (hw : ∀ c ∈ w, isWsChar c = true) (hw' : ∀ c ∈ w', isWsChar c = true)
    (hd : d ≠ []) (hdd : ∀ c ∈ d, Char.isDigit c = true) :
    jsTrim (w ++ d ++ w') = d := by
  unfold jsTrim
  have h1 : (w ++ d ++ w').dropWhile isWsChar = d ++ w' := by
    rw [List.append_assoc, dropWhile_append_all hw]
    cases d with
    | nil => exact absurd rfl hd
    | cons a l =>
      have ha : isWsChar a = false := digit_not_ws (hdd a (List.mem_cons_self a l))
      simp [List.cons_append, List.dropWhile_cons, ha]
  rw [h1]
  have h2 : (d ++ w').reverse.dropWhile isWsChar = d.reverse := by
    rw [List.reverse_append,
      dropWhile_append_all (fun c hc => hw' c (List.mem_reverse.mp hc))]
    cases hr : d.reverse with
    | nil => simp
    | cons a l =>
      have ha : a ∈ d := List.mem_reverse.mp (by rw [hr]; exact List.mem_cons_self a l)
      have hna : isWsChar a = false := digit_not_ws (hdd a ha)
      simp [List.dropWhile_cons, hna]
  rw [h2, List.reverse_reverse]

theorem jsNumber_sandwich {w d w' : List Char}
    (hw : ∀ c ∈ w, isWsChar c = true) (hw' : ∀ c ∈ w', isWsChar c = true)
    (hd : d ≠ []) (hdd : ∀ c ∈ d, Char.isDigit c = true) :
    jsNumber (w ++ d ++ w') = .fin (jqOfNat (digitsVal d)) := by
  unfold jsNumber
  rw [jsTrim_sandwich hw hw' hd hdd]
  have hne : d.isEmpty = false := by
    cases d
    · exact absurd rfl hd
    · rfl
  have hall : d.all Char.isDigit = true := List.all_eq_true.mpr hdd
  simp [hne, hall]

/-! ## Claim theorems -/

/-- Claim C8: the tokenizer is a total, deterministic, pure function
(it is a Lean function); on the example it lower-cases, strips
punctuation and splits: tokenize of Hello, World!! is the token list
hello, world; and in general every produced token is non-empty and
consists only of word-class characters, with all whitespace removed. -/
theorem c8_tokenize_normalizes :
    tokenize ("Hello, World!!".toList) = ["hello".toList, "world".toList] ∧
    ∀ (s t : List Char), t ∈ tokenize s →
      t ≠ [] ∧ ∀ a ∈ t, isWordChar a = true ∧ isWsChar a = false := by
  constructor
  · decide
  · intro s t ht
    have ht' : t ∈ splitRuns isWsChar
        ((s.map jsToLower).filter (fun c => isWordChar c || isWsChar c)) ∧
        0 < t.length := by
      simpa [tokenize] using ht
    have hlen : 0 < t.length := ht'.2
    refine ⟨by intro h; subst h; simp at hlen, ?_⟩
    intro a ha
    have hres := splitRuns_mem isWsChar _ t ht'.1 a ha
    have hf := (List.mem_filter.mp hres.1).2
    have hw : isWsChar a = false := hres.2
    refine ⟨?_, hw⟩
    simpa [hw] using hf

/-- Witness for C8 at a concrete input: the token a of the message
a-b c! is non-empty and free of whitespace and punctuation. -/
theorem c8_tokenize_normalizes_w :
    ("ab".toList ∈ tokenize ("Ab c, d!".toList)) ∧
    ("ab".toList ≠ [] ∧ ∀ a ∈ "ab".toList, isWordChar a = true ∧ isWsChar a = false) :=
  ⟨by decide, c8_tokenize_normalizes.2 ("Ab c, d!".toList) ("ab".toList) (by decide)⟩

/-- Claim C9: detectKnowledgeType returns MATH exactly when the message
contains a digit or one of the characters plus minus star slash equals;
the geography and politics branches are reachable only for messages
with none of those characters; and the purely textual question top 10
capitals is classified MATH, never GEOGRAPHY. -/
theorem c9_detect_math_priority :
    (∀ msg : List Char, detectKnowledgeType msg = KnowledgeType.MATH ↔
      (msg.map jsToLower).any isMathDetectChar = true) ∧
    (∀ msg : List Char,
      detectKnowledgeType msg = KnowledgeType.GEOGRAPHY ∨
        detectKnowledgeType msg = KnowledgeType.POLITICS →
      (msg.map jsToLower).any isMathDetectChar = false) ∧
    detectKnowledgeType ("top 10 capitals".toList) = KnowledgeType.MATH := by
  refine ⟨?_, ?_, by decide⟩
  · intro msg
    unfold detectKnowledgeType
    by_cases h : (msg.map jsToLower).any isMathDetectChar = true
    · simp [h]
    · simp only [h, if_false, Bool.false_eq_true]
      constructor
      · intro hcontra
        split at hcontra
        · cases hcontra
        · split at hcontra
          · cases hcontra
          · cases hcontra
      · intro hcontra
        exact hcontra.elim
  · intro msg hgp
    by_cases h : (msg.map jsToLower).any isMathDetectChar = true
    · exfalso
      unfold detectKnowledgeType at hgp
      rw [if_pos h] at hgp
      rcases hgp with hg | hp
      · cases hg
      · cases hp
    · simpa using h

/-- Witness for C9 at a concrete input: qual a capital is classified
GEOGRAPHY, and accordingly contains no math character. -/
theorem c9_detect_math_priority_w :
    (detectKnowledgeType ("qual a capital".toList) = KnowledgeType.GEOGRAPHY ∨
      detectKnowledgeType ("qual a capital".toList) = KnowledgeType.POLITICS) ∧
    (("qual a capital".toList).map jsToLower).any isMathDetectChar = false :=
  ⟨Or.inl (by decide),
   c9_detect_math_priority.2.1 ("qual a capital".toList) (Or.inl (by decide))⟩

/-- Claim C2, counterexample: the message 5 / 0 contains a bare
two-operand arithmetic expression and no equals sign, yet
generateResponse does not answer with confidence 1: the evaluation is
non-finite, the math path falls through, and on an empty store the
teach-me answer with confidence 0 is returned. -/
theorem c2_bare_arith_counterex :
    (findFirstTwoOp ("5 / 0".toList)).isSome = true ∧
    ("5 / 0".toList).contains '=' = false ∧
    (generateResponse ("5 / 0".toList) []).1.confidence = jqOfNat 0 := by
  refine ⟨by decide, by decide, ?_⟩
  decide

/-- Claim C2 as amended: for every message containing a bare
two-operand arithmetic expression, no equals sign, whose evaluation is
finite, generateResponse returns the string expression-with-whitespace-
removed = result with confidence exactly 1, and the store is unchanged
(no fact is persisted on this path). -/
theorem c2_bare_arith_math_path (msg : List Char) (store : List Knowledge)
    (m : List Char) (hm : findFirstTwoOp msg = some m)
    (hne : msg.contains '=' = false)
    (hfin : jsIsFinite (evalCleanTwoOp (m.filter (fun c => !isWsChar c))) = true) :
    generateResponse msg store =
      ({ content := m.filter (fun c => !isWsChar c) ++ (" = ").toList ++
           jsNumToString (evalCleanTwoOp (m.filter (fun c => !isWsChar c))),
         confidence := jqOfNat 1 }, store) := by
  unfold generateResponse
  rw [hm]
  simp only [hfin, if_true]

/-- Witness for C2 as amended, at the message 7 + 2 against a one-fact
store: the answer is 7+2 = 9 with confidence 1 and the store is
untouched. -/
theorem c2_bare_arith_math_path_w :
    findFirstTwoOp ("7 + 2".toList) = some ("7 + 2".toList) ∧
    ("7 + 2".toList).contains '=' = false ∧
    jsIsFinite (evalCleanTwoOp (("7 + 2".toList).filter (fun c => !isWsChar c))) = true ∧
    generateResponse ("7 + 2".toList) [teachFact ("1 + 1 = 2".toList)] =
      ({ content := ("7 + 2".toList).filter (fun c => !isWsChar c) ++ (" = ").toList ++
           jsNumToString (evalCleanTwoOp (("7 + 2".toList).filter (fun c => !isWsChar c))),
         confidence := jqOfNat 1 }, [teachFact ("1 + 1 = 2".toList)]) :=
  ⟨by decide, by decide, by decide,
   c2_bare_arith_math_path ("7 + 2".toList) [teachFact ("1 + 1 = 2".toList)]
     ("7 + 2".toList) (by decide) (by decide) (by decide)⟩

/-- Claim C7: on the message consisting of one left parenthesis, the
raw text is interpolated unescaped into the word-boundary search
pattern, the resulting pattern fails the validity check of
the regular-expression compiler (the construction throws), and
generateResponse ends in its catch with the generic error answer. -/
theorem c7_unescaped_pattern_throws :
    buildPattern1 (jsTrim (("(".toList).map jsToLower)) = "\\b(\\b".toList ∧
    regexCompileOk ("\\b(\\b".toList) = false ∧
    generateResponse ("(".toList) [] =
      ({ content := errorContent, confidence := jqOfNat 0 }, []) := by
  refine ⟨by decide, by decide, ?_⟩
  decide

/-- Claim C4: dividing by zero yields the non-finite Infinity, and the
findKnowledge calculate-and-cache path nevertheless persists the fact
5 / 0 = Infinity with source calculated — the non-finite result is not
treated as an evaluation failure there. -/
theorem c4_divzero_fact_persisted :
    calculateExpression ("5 / 0".toList) = JSNum.inf ∧
    jsIsFinite (calculateExpression ("5 / 0".toList)) = false ∧
    findKnowledge ("5 / 0".toList) [] =
      (some ("5 / 0 = Infinity".toList), [calcFact ("5 / 0 = Infinity".toList)]) := by
  refine ⟨by decide, by decide, ?_⟩
  decide

/-- The two near-duplicate stored facts used to examine the retrieval
deduplication claim. -/
def factUpper : Knowledge :=
  { content := "Hello World".toList, source := "test".toList, type := none,
    category := none, tokens := [], confidence := none }

def factLower : Knowledge :=
  { content := "hello  world".toList, source := "test".toList, type := none,
    category := none, tokens := [], confidence := none }

/-- Claim C6, counterexample: two stored facts whose contents are equal
after lower-casing and whitespace-collapsing but differ as strings both
reach the candidate list handed to answer selection for the query
hello world — no deduplication step collapses them. -/
theorem c6_no_dedup_counterex :
    normContent factUpper.content = normContent factLower.content ∧
    factUpper.content ≠ factLower.content ∧
    candidateFacts ("hello world".toList) [factUpper, factLower] =
      [factLower, factUpper] := by
  refine ⟨by decide, by decide, ?_⟩
  decide

/-- Claim C6 as amended: the retriever of the part_003 controller
performs no normalisation-based deduplication: whenever two distinct
facts both match the store filter for a query, both reach the
selection step (most recent first), even when their contents are
identical after lower-casing and whitespace-collapsing. -/
theorem c6_no_dedup (msg : List Char) (f g : Knowledge) (hfg : f ≠ g)
    (hnorm : normContent f.content = normContent g.content)
    (hf : candMatch msg f.content = true) (hg : candMatch msg g.content = true) :
    candidateFacts msg [f, g] = [g, f] := by
  unfold candidateFacts
  simp [List.filter_cons, hf, hg]

/-- Witness for C6 as amended at the two concrete near-duplicate facts
and the query hello world. -/
theorem c6_no_dedup_w :
    factUpper ≠ factLower ∧
    normContent factUpper.content = normContent factLower.content ∧
    candMatch ("hello world".toList) factUpper.content = true ∧
    candMatch ("hello world".toList) factLower.content = true ∧
    candidateFacts ("hello world".toList) [factUpper, factLower] =
      [factLower, factUpper] :=
  ⟨by decide, by decide, by decide, by decide,
   c6_no_dedup ("hello world".toList) factUpper factLower (by decide)
     (by decide) (by decide) (by decide)⟩

theorem any_of_find?_some {α : Type} {p : α → Bool} {l : List α} {a : α}
    (h : l.find? p = some a) : l.any p = true :=
  List.any_eq_true.mpr ⟨a, List.mem_of_find?_eq_some h, List.find?_some h⟩

/-- Claim C3: for every message whose teaching guard holds (it contains
an equals sign, the trimmed left side passes the validation regex and
recomputes strictly equal to Number of the trimmed right side),
learnFromMessage reports success, persists the math fact with the
formatted content exactly when no math fact with that content already
exists, and re-teaching the identical message against the resulting
store changes nothing. -/
theorem c3_teach_dedup (msg : List Char) (store : List Knowledge)
    (c : List Char) (h : teachContentOf msg = some c) :
    (learnFromMessage msg store).1 = LearnOutcome.taught ∧
    (learnFromMessage msg store).2 =
      (if store.any (isMathFactWith c) then store else store ++ [teachFact c]) ∧
    learnFromMessage msg ((learnFromMessage msg store).2) =
      (LearnOutcome.taught, (learnFromMessage msg store).2) := by
  simp only [teachContentOf] at h
  split at h
  case isFalse => cases h
  case isTrue hct =>
    split at h
    case isFalse => cases h
    case isTrue hcond =>
      rw [Bool.and_eq_true] at hcond
      obtain ⟨hvalid, heq⟩ := hcond
      injection h with hc
      simp only [learnFromMessage, hct, if_true, hvalid, heq, hc]
      cases hfind : store.find? (isMathFactWith c) with
      | some f =>
        have hany := any_of_find?_some hfind
        rw [if_pos hany]
        refine ⟨rfl, rfl, ?_⟩
        simp only [learnFromMessage, hct, if_true, hvalid, heq, hc, hfind]
      | none =>
        have hany : store.any (isMathFactWith c) = false := by
          rcases (find?_eq_none_iff_any (isMathFactWith c) store).mp hfind with h
          exact h
        rw [if_neg (by simp [hany])]
        refine ⟨rfl, rfl, ?_⟩
        simp only [learnFromMessage, hct, if_true, hvalid, heq, hc]
        rw [find?_append_none hfind]
        have hself : isMathFactWith c (teachFact c) = true := by
          simp [isMathFactWith, teachFact]
        rw [List.find?_cons_of_pos _ hself]

/-- Witness for C3 at the taught message 5 + 3 = 8 on the empty store:
one fact is persisted and the immediate re-teach adds nothing. -/
theorem c3_teach_dedup_w :
    teachContentOf ("5 + 3 = 8".toList) = some ("5 + 3 = 8".toList) ∧
    ((learnFromMessage ("5 + 3 = 8".toList) []).1 = LearnOutcome.taught ∧
     (learnFromMessage ("5 + 3 = 8".toList) []).2 =
       (if ([] : List Knowledge).any (isMathFactWith ("5 + 3 = 8".toList)) then []
        else [] ++ [teachFact ("5 + 3 = 8".toList)]) ∧
     learnFromMessage ("5 + 3 = 8".toList) ((learnFromMessage ("5 + 3 = 8".toList) []).2) =
       (LearnOutcome.taught, (learnFromMessage ("5 + 3 = 8".toList) []).2)) :=
  ⟨by decide, c3_teach_dedup ("5 + 3 = 8".toList) [] ("5 + 3 = 8".toList) (by decide)⟩

/-- Claim C10: whenever findKnowledge detects an arithmetic expression
in a query, it returns the formatted string expression = result; it
inserts a calculated math fact with that content exactly when no math
fact with that content exists; and a repeated call against the
resulting store returns the same string and changes nothing, so at most
one calculated record per expression is ever added. -/
theorem c10_findKnowledge_cache (q : List Char) (store : List Knowledge)
    (fm : List Char) (h : formattedOf q = some fm) :
    (findKnowledge q store).1 = some fm ∧
    (findKnowledge q store).2 =
      (if store.any (isMathFactWith fm) then store else store ++ [calcFact fm]) ∧
    findKnowledge q ((findKnowledge q store).2) =
      (some fm, (findKnowledge q store).2) := by
  unfold formattedOf mathExprOf at h
  cases hm : findFirstMath (cleanQuery q) with
  | none => rw [hm] at h; cases h
  | some m =>
    rw [hm] at h
    simp only [Option.map_some'] at h
    injection h with hfm
    simp only [findKnowledge, hm, hfm]
    cases hfind : store.find? (isMathFactWith fm) with
    | some f =>
      have hany := any_of_find?_some hfind
      have hcontent : f.content = fm := by
        have hp := List.find?_some hfind
        simp only [isMathFactWith, Bool.and_eq_true, beq_iff_eq] at hp
        exact hp.2
      rw [if_pos hany]
      refine ⟨by simp [hcontent], by simp, ?_⟩
      simp only [findKnowledge, hm, hfm, hfind]
      simp [hcontent]
    | none =>
      have hany : store.any (isMathFactWith fm) = false :=
        (find?_eq_none_iff_any (isMathFactWith fm) store).mp hfind
      rw [if_neg (by simp [hany])]
      refine ⟨rfl, rfl, ?_⟩
      simp only [findKnowledge, hm, hfm]
      rw [find?_append_none hfind]
      have hself : isMathFactWith fm (calcFact fm) = true := by
        simp [isMathFactWith, calcFact]
      rw [List.find?_cons_of_pos _ hself]
      simp [calcFact]

/-- Witness for C10 at the query 2 + 3 on the empty store: the answer
is 2 + 3 = 5, one calculated fact is stored, and the repeated call
returns the same string without a second record. -/
theorem c10_findKnowledge_cache_w :
    formattedOf ("2 + 3".toList) = some ("2 + 3 = 5".toList) ∧
    ((findKnowledge ("2 + 3".toList) []).1 = some ("2 + 3 = 5".toList) ∧
     (findKnowledge ("2 + 3".toList) []).2 =
       (if ([] : List Knowledge).any (isMathFactWith ("2 + 3 = 5".toList)) then []
        else [] ++ [calcFact ("2 + 3 = 5".toList)]) ∧
     findKnowledge ("2 + 3".toList) ((findKnowledge ("2 + 3".toList) []).2) =
       (some ("2 + 3 = 5".toList), (findKnowledge ("2 + 3".toList) []).2)) :=
  ⟨by decide, c10_findKnowledge_cache ("2 + 3".toList) [] ("2 + 3 = 5".toList) (by decide)⟩

/-- The best-entry selection fold of analyzeContent, characterised: the
result dominates every entry and the initial pair; and it either is the
initial pair, or occurs in the list with a strictly higher score than
the initial pair and than every earlier entry, later entries not
exceeding it (strictly-higher replacement, first maximum wins). -/
theorem foldPick_spec (m : List (List Char × Nat)) (b0 : List Char × Nat) :
    (∀ p ∈ m, p.2 ≤ (m.foldl (fun b p => if b.2 < p.2 then p else b) b0).2) ∧
    b0.2 ≤ (m.foldl (fun b p => if b.2 < p.2 then p else b) b0).2 ∧
    ((m.foldl (fun b p => if b.2 < p.2 then p else b) b0) = b0 ∨
      ∃ pre post,
        m = pre ++ (m.foldl (fun b p => if b.2 < p.2 then p else b) b0) :: post ∧
        b0.2 < (m.foldl (fun b p => if b.2 < p.2 then p else b) b0).2 ∧
        (∀ p ∈ pre, p.2 < (m.foldl (fun b p => if b.2 < p.2 then p else b) b0).2) ∧
        (∀ p ∈ post, p.2 ≤ (m.foldl (fun b p => if b.2 < p.2 then p else b) b0).2)) := by
  induction m generalizing b0 with
  | nil => exact ⟨by simp, le_refl _, Or.inl rfl⟩
  | cons q m ih =>
    simp only [List.foldl_cons]
    by_cases hq : b0.2 < q.2
    · rw [if_pos hq]
      obtain ⟨h1, h2, h3⟩ := ih q
      refine ⟨?_, le_of_lt (lt_of_lt_of_le hq h2), ?_⟩
      · intro p hp
        rcases List.mem_cons.mp hp with rfl | hp
        · exact h2
        · exact h1 p hp
      · rcases h3 with heq | ⟨pre, post, hm, hlt, hpre, hpost⟩
        · right
          refine ⟨[], m, ?_, ?_, by simp, h1⟩
          · rw [heq]; simp
          · rw [heq]; exact hq
        · right
          refine ⟨q :: pre, post, ?_, lt_trans hq hlt, ?_, hpost⟩
          · rw [List.cons_append, ← hm]
          · intro p hp
            rcases List.mem_cons.mp hp with rfl | hp
            · exact hlt
            · exact hpre p hp
    · rw [if_neg hq]
      obtain ⟨h1, h2, h3⟩ := ih b0
      have hqle : q.2 ≤ b0.2 := le_of_not_lt hq
      refine ⟨?_, h2, ?_⟩
      · intro p hp
        rcases List.mem_cons.mp hp with rfl | hp
        · exact le_trans hqle h2
        · exact h1 p hp
      · rcases h3 with heq | ⟨pre, post, hm, hlt, hpre, hpost⟩
        · exact Or.inl heq
        · right
          refine ⟨q :: pre, post, ?_, hlt, ?_, hpost⟩
          · rw [List.cons_append, ← hm]
          · intro p hp
            rcases List.mem_cons.mp hp with rfl | hp
            · exact lt_of_le_of_lt hqle hlt
            · exact hpre p hp

/-- Claim C5, counterexample: for the message tag número, the
programming and math categories tie at the top score 1, yet
analyzeContent returns programming (the first-inserted of the tied
categories), not general as the claim states. -/
theorem c5_tie_counterex :
    scoreMap ("tag número".toList) [] =
      [("programming".toList, 1), ("math".toList, 1)] ∧
    ((analyzeContent ("tag número".toList) []).1).category = "programming".toList ∧
    ("programming".toList : List Char) ≠ "general".toList := by
  exact ⟨by decide, by decide, by decide⟩

/-- Claim C5 as amended: analyzeContent returns the category selected
by the strictly-higher replacement fold over the score map: the chosen
category's score dominates every scored category; when categories tie
at the top, the first-inserted one wins, and general is returned
exactly in the initial-pair case (no strictly positive score);
confidence is the best score divided by the token count, where the
token count is always at least one (an empty split still yields one
empty token), with no clamping applied. -/
theorem c5_best_category (msg : List Char) (store : List Knowledge) :
    (analyzeContent msg store).1.category = (bestOf (scoreMap msg store)).1 ∧
    (analyzeContent msg store).1.confidence =
      jqDiv (jqOfNat (bestOf (scoreMap msg store)).2)
        (jqOfNat (tokensOf msg).length) ∧
    0 < (tokensOf msg).length ∧
    (∀ p ∈ scoreMap msg store, p.2 ≤ (bestOf (scoreMap msg store)).2) ∧
    (bestOf (scoreMap msg store) = ("general".toList, 0) ∨
      ∃ pre post,
        scoreMap msg store = pre ++ bestOf (scoreMap msg store) :: post ∧
        0 < (bestOf (scoreMap msg store)).2 ∧
        (∀ p ∈ pre, p.2 < (bestOf (scoreMap msg store)).2) ∧
        (∀ p ∈ post, p.2 ≤ (bestOf (scoreMap msg store)).2)) := by
  obtain ⟨h1, h2, h3⟩ := foldPick_spec (scoreMap msg store) ("general".toList, 0)
  exact ⟨rfl, rfl, List.length_pos.mpr (splitRuns_ne_nil _ _), h1, h3⟩

/-- Witness for C5 as amended at the message tag html a on the empty
store: the single scored entry programming with score 2 is dominated by
the selected best score. -/
theorem c5_best_category_w :
    (("programming".toList, 2) ∈ scoreMap ("tag html a".toList) []) ∧
    (("programming".toList, 2) : List Char × Nat).2 ≤
      (bestOf (scoreMap ("tag html a".toList) [])).2 :=
  ⟨by decide,
   (c5_best_category ("tag html a".toList) []).2.2.2.1 ("programming".toList, 2)
     (by decide)⟩

/-! ## Claim C1: structure of valid expressions

A valid arithmetic expression in the sense of the validation regex is
leading digits followed by any number of groups of optional whitespace,
one operator character and optional whitespace before further digits;
EPart records one such group, so that quantifying over the leading
digit token and the group list quantifies over exactly the language of
the regex. -/

structure EPart where
  ws1 : List Char
  opc : Char
  ws2 : List Char
  digs : List Char
deriving DecidableEq, Repr

def concatParts : List EPart → List Char
  | [] => []
  | p :: ps => p.ws1 ++ p.opc :: (p.ws2 ++ (p.digs ++ concatParts ps))

/-- The expression string with leading digit token d0 and group list ps. -/
def renderExpr (d0 : List Char) (ps : List EPart) : List Char :=
  d0 ++ concatParts ps

/-- Well-formedness of one group: whitespace runs, a real operator
character and a non-empty digit token. -/
def goodPart (p : EPart) : Prop :=
  (∀ c ∈ p.ws1, isWsChar c = true) ∧ isOpChar p.opc = true ∧
    (∀ c ∈ p.ws2, isWsChar c = true) ∧
    (p.digs ≠ [] ∧ ∀ c ∈ p.digs, Char.isDigit c = true)

theorem op_not_digit {c : Char} (h : isOpChar c = true) : Char.isDigit c = false := by
  rcases op_cases h with rfl | rfl | rfl | rfl | rfl <;> decide

instance : DecidablePred goodPart := fun p => by
  unfold goodPart
  exact inferInstance

theorem concat_take_drop_digit (ps : List EPart) (hps : ∀ p ∈ ps, goodPart p) :
    (concatParts ps).takeWhile Char.isDigit = [] ∧
    (concatParts ps).dropWhile Char.isDigit = concatParts ps := by
  cases ps with
  | nil => simp [concatParts]
  | cons p ps =>
    obtain ⟨hw1, hop, _, _⟩ := hps p (List.mem_cons_self p ps)
    simp only [concatParts]
    cases hws : p.ws1 with
    | nil =>
      simp only [List.nil_append]
      exact ⟨takeWhile_cons_neg (op_not_digit hop) _,
        dropWhile_cons_neg (op_not_digit hop) _⟩
    | cons a w =>
      have ha : isWsChar a = true := hw1 a (by rw [hws]; exact List.mem_cons_self a w)
      simp only [List.cons_append]
      exact ⟨takeWhile_cons_neg (ws_not_digit ha) _,
        dropWhile_cons_neg (ws_not_digit ha) _⟩

theorem concatParts_assoc (w d : List Char) (p : EPart) (ps : List EPart) :
    w ++ d ++ concatParts (p :: ps) =
      ((w ++ d) ++ p.ws1) ++ p.opc :: (p.ws2 ++ p.digs ++ concatParts ps) := by
  simp [concatParts, List.append_assoc]

theorem concatParts_nums : ∀ (ps : List EPart) (w d : List Char),
    (∀ c ∈ w, isWsChar c = true) → d ≠ [] → (∀ c ∈ d, Char.isDigit c = true) →
    (∀ p ∈ ps, goodPart p) →
    (splitEvery isOpChar (w ++ d ++ concatParts ps)).map jsNumber =
      JSNum.fin (jqOfNat (digitsVal d)) ::
        ps.map (fun p => JSNum.fin (jqOfNat (digitsVal p.digs))) := by
  intro ps
  induction ps with
  | nil =>
    intro w d hw hd hdd _
    have hnoop : ∀ c ∈ w ++ d, isOpChar c = false := by
      intro c hc
      rcases List.mem_append.mp hc with hc | hc
      · exact ws_not_op (hw c hc)
      · exact digit_not_op (hdd c hc)
    simp only [concatParts, List.append_nil]
    rw [splitEvery_all_neg hnoop]
    have hsand := @jsNumber_sandwich w d [] hw (by simp) hd hdd
    simp only [List.append_nil] at hsand
    simp [hsand]
  | cons p ps ih =>
    intro w d hw hd hdd hps
    obtain ⟨hw1, hop, hw2, hdigs⟩ := hps p (List.mem_cons_self p ps)
    have hnoop : ∀ c ∈ (w ++ d) ++ p.ws1, isOpChar c = false := by
      intro c hc
      rcases List.mem_append.mp hc with hc | hc
      · rcases List.mem_append.mp hc with hc | hc
        · exact ws_not_op (hw c hc)
        · exact digit_not_op (hdd c hc)
      · exact ws_not_op (hw1 c hc)
    rw [concatParts_assoc, splitEvery_append_sep hnoop hop]
    simp only [List.map_cons]
    congr 1
    · exact jsNumber_sandwich hw hw1 hd hdd
    · exact ih p.ws2 p.digs hw2 hdigs.1 hdigs.2
        (fun q hq => hps q (List.mem_cons_of_mem p hq))

theorem concatParts_ops : ∀ (ps : List EPart) (w d : List Char),
    (∀ c ∈ w, isWsChar c = true) → (∀ c ∈ d, Char.isDigit c = true) →
    (∀ p ∈ ps, goodPart p) →
    (w ++ d ++ concatParts ps).filter isOpChar = ps.map (fun p => p.opc) := by
  intro ps
  induction ps with
  | nil =>
    intro w d hw hdd _
    have hnoop : ∀ c ∈ w ++ d, isOpChar c = false := by
      intro c hc
      rcases List.mem_append.mp hc with hc | hc
      · exact ws_not_op (hw c hc)
      · exact digit_not_op (hdd c hc)
    simp only [concatParts, List.append_nil]
    rw [filter_all_neg hnoop]
    simp
  | cons p ps ih =>
    intro w d hw hdd hps
    obtain ⟨hw1, hop, hw2, hdigs⟩ := hps p (List.mem_cons_self p ps)
    have hnoop : ∀ c ∈ (w ++ d) ++ p.ws1, isOpChar c = false := by
      intro c hc
      rcases List.mem_append.mp hc with hc | hc
      · rcases List.mem_append.mp hc with hc | hc
        · exact ws_not_op (hw c hc)
        · exact digit_not_op (hdd c hc)
      · exact ws_not_op (hw1 c hc)
    rw [concatParts_assoc, filter_sep hnoop hop]
    simp only [List.map_cons]
    congr 1
    exact ih p.ws2 p.digs hw2 hdigs.2 (fun q hq => hps q (List.mem_cons_of_mem p hq))

theorem runOps_zip : ∀ (ps : List EPart) (r : JSNum),
    runOps r (ps.map (fun p => p.opc))
      (ps.map (fun p => JSNum.fin (jqOfNat (digitsVal p.digs)))) =
    ps.foldl (fun r p => applyOp r p.opc (JSNum.fin (jqOfNat (digitsVal p.digs)))) r := by
  intro ps
  induction ps with
  | nil => intro r; rfl
  | cons p ps ih =>
    intro r
    simp only [List.map_cons, runOps, List.headD_cons, List.tail_cons, List.foldl_cons]
    exact ih _

theorem parts_length_le (ps : List EPart) (hps : ∀ p ∈ ps, goodPart p) :
    ps.length ≤ (concatParts ps).length := by
  induction ps with
  | nil => simp [concatParts]
  | cons p ps ih =>
    have hd := (hps p (List.mem_cons_self p ps)).2.2.2.1
    have ihl := ih (fun q hq => hps q (List.mem_cons_of_mem p hq))
    have hdl : 1 ≤ p.digs.length := by
      cases hdg : p.digs with
      | nil => exact absurd hdg hd
      | cons a l => simp
    simp only [concatParts, List.length_append, List.length_cons]
    omega

theorem validFuel_concat : ∀ (ps : List EPart) (fuel : Nat),
    (∀ p ∈ ps, goodPart p) → ps.length ≤ fuel →
    validExprTailFuel fuel (concatParts ps) = true := by
  intro ps
  induction ps with
  | nil =>
    intro fuel _ _
    cases fuel <;> simp [validExprTailFuel, concatParts]
  | cons p ps ih =>
    intro fuel hps hlen
    cases fuel with
    | zero => simp at hlen
    | succ f =>
      obtain ⟨hw1, hop, hw2, hdigs⟩ := hps p (List.mem_cons_self p ps)
      have hrest := fun q hq => hps q (List.mem_cons_of_mem p hq)
      simp only [concatParts, validExprTailFuel]
      have hempty : (p.ws1 ++ p.opc :: (p.ws2 ++ (p.digs ++ concatParts ps))).isEmpty
          = false := by
        cases p.ws1 <;> simp
      rw [hempty]
      simp only [Bool.false_eq_true, if_false]
      have hdrop : (p.ws1 ++ p.opc :: (p.ws2 ++ (p.digs ++ concatParts ps))).dropWhile
          isWsChar = p.opc :: (p.ws2 ++ (p.digs ++ concatParts ps)) := by
        rw [dropWhile_append_all hw1, dropWhile_cons_neg (op_not_ws hop)]
      rw [hdrop]
      simp only [hop, if_true]
      have hdrop2 : (p.ws2 ++ (p.digs ++ concatParts ps)).dropWhile isWsChar =
          p.digs ++ concatParts ps := by
        rw [dropWhile_append_all hw2]
        cases hdg : p.digs with
        | nil => exact absurd hdg hdigs.1
        | cons a l =>
          have ha : Char.isDigit a = true := hdigs.2 a (by rw [hdg]; exact List.mem_cons_self a l)
          simp only [List.cons_append]
          exact dropWhile_cons_neg (digit_not_ws ha) _
      rw [hdrop2]
      have htake : (p.digs ++ concatParts ps).takeWhile Char.isDigit = p.digs := by
        rw [takeWhile_append_all hdigs.2, (concat_take_drop_digit ps hrest).1,
          List.append_nil]
      have hdrop3 : (p.digs ++ concatParts ps).dropWhile Char.isDigit = concatParts ps := by
        rw [dropWhile_append_all hdigs.2, (concat_take_drop_digit ps hrest).2]
      rw [htake, hdrop3]
      have hne : p.digs.isEmpty = false := by
        cases hdg : p.digs with
        | nil => exact absurd hdg hdigs.1
        | cons a l => rfl
      rw [hne]
      simp only [Bool.false_eq_true, if_false]
      exact ih f hrest (Nat.le_of_succ_le_succ hlen)

/-- Claim C1: for every valid arithmetic expression of two or more
integer operands joined by the five operator characters — every string
of the validation-regex language, given by its leading digit token and
its group list — calculateExpression returns exactly the strict
left-to-right fold of the flat operand and operator list, with no
operator precedence; and the string indeed passes the validation
regex. -/
theorem c1_calc_left_to_right (d0 : List Char) (ps : List EPart)
    (h0 : d0 ≠ [] ∧ ∀ c ∈ d0, Char.isDigit c = true)
    (hps : ∀ p ∈ ps, goodPart p) (hne : ps ≠ []) :
    calculateExpression (renderExpr d0 ps) =
      ps.foldl (fun r p => applyOp r p.opc (JSNum.fin (jqOfNat (digitsVal p.digs))))
        (JSNum.fin (jqOfNat (digitsVal d0))) ∧
    regexValidExpr (renderExpr d0 ps) = true := by
  constructor
  · unfold calculateExpression renderExpr
    have hnums := concatParts_nums ps [] d0 (by simp) h0.1 h0.2 hps
    have hops := concatParts_ops ps [] d0 (by simp) h0.2 hps
    simp only [List.nil_append] at hnums hops
    rw [hnums, hops]
    simp only [List.headD_cons, List.tail_cons]
    exact runOps_zip ps _
  · unfold regexValidExpr renderExpr
    have htake : (d0 ++ concatParts ps).takeWhile Char.isDigit = d0 := by
      rw [takeWhile_append_all h0.2, (concat_take_drop_digit ps hps).1, List.append_nil]
    have hdrop : (d0 ++ concatParts ps).dropWhile Char.isDigit = concatParts ps := by
      rw [dropWhile_append_all h0.2, (concat_take_drop_digit ps hps).2]
    rw [htake, hdrop]
    have hne0 : d0.isEmpty = false := by
      cases hdg : d0 with
      | nil => exact absurd hdg h0.1
      | cons a l => rfl
    have hvalid : validExprTail (concatParts ps) = true :=
      validFuel_concat ps (concatParts ps).length hps (parts_length_le ps hps)
    unfold validExprTail at hvalid
    simp [hne0, hvalid, validExprTail]

/-- The two groups of the witness expression 2 + 3 x 4. -/
def epPlus3 : EPart := ⟨[' '], '+', [' '], ['3']⟩

def epTimes4 : EPart := ⟨[' '], 'x', [' '], ['4']⟩

/-- Witness for C1 at the expression 2 + 3 x 4: the render is that
string, the left-to-right fold applies, and the value is 20 — that is,
(2 + 3) times 4, not 2 + (3 times 4) = 14. -/
theorem c1_calc_left_to_right_w :
    renderExpr ("2".toList) [epPlus3, epTimes4] = "2 + 3 x 4".toList ∧
    (("2".toList ≠ [] ∧ ∀ c ∈ "2".toList, Char.isDigit c = true) ∧
      (∀ p ∈ [epPlus3, epTimes4], goodPart p) ∧
      ([epPlus3, epTimes4] ≠ ([] : List EPart))) ∧
    calculateExpression (renderExpr ("2".toList) [epPlus3, epTimes4]) =
      JSNum.fin ⟨20, 1⟩ ∧
    (calculateExpression (renderExpr ("2".toList) [epPlus3, epTimes4]) =
      [epPlus3, epTimes4].foldl
        (fun r p => applyOp r p.opc (JSNum.fin (jqOfNat (digitsVal p.digs))))
        (JSNum.fin (jqOfNat (digitsVal ("2".toList)))) ∧
     regexValidExpr (renderExpr ("2".toList) [epPlus3, epTimes4]) = true) :=
  ⟨by decide, ⟨⟨by decide, by decide⟩, by decide, by decide⟩, by decide,
   c1_calc_left_to_right ("2".toList) [epPlus3, epTimes4] ⟨by decide, by decide⟩
     (by decide) (by decide)⟩
